import Mathlib

/-!
Verification of the azalea modpack manager's resolution core.

Version strings are modelled as lists of characters (`List Char`), so that
the Python string operations used by the source (`endswith`, slicing with
`[:-2]`, `startswith`) become explicit list operations.  Identifiers, slugs
and loader names are only ever compared for equality, so they stay `String`.
-/

namespace Azalea

/-! ## Python string primitives on `List Char` -/

/-- Python `s.startswith(pat)` on character lists. -/
def strStartsWith : List Char → List Char → Bool
  | _, [] => true
  | [], _ :: _ => false
  | c :: cs, d :: ds => c == d && strStartsWith cs ds

/-- Python `s.endswith(pat)` on character lists. -/
def strEndsWith (s pat : List Char) : Bool :=
  strStartsWith s.reverse pat.reverse

/-- Python `s[:-2]`: drop the final two characters (empty when `|s| ≤ 2`). -/
def pyDropLast2 (s : List Char) : List Char :=
  s.take (s.length - 2)

/-- The literal `".x"` wildcard suffix. -/
def dotX : List Char := ['.', 'x']

/-- The literal `"."` separator. -/
def dotC : List Char := ['.']

/-! ## Compatibility matcher (`minecraft.mc_version_matches`) -/

/-- One iteration of the loop body of `mc_version_matches`: does the
supported entry `v` accept the `target` version? -/
def versionEntryMatches (target v : List Char) : Bool :=
  v == target
    || (strEndsWith v dotX
        && (let p := pyDropLast2 v
            target == p || strStartsWith target (p ++ dotC)))
    || (strEndsWith target dotX
        && (let p := pyDropLast2 target
            v == p || strStartsWith v (p ++ dotC)))

/-- `minecraft.mc_version_matches(target, supported)`: the source loops over
`supported` and returns `True` as soon as one of the three clauses fires. -/
def mc_version_matches (target : List Char) (supported : List (List Char)) : Bool :=
  supported.any (versionEntryMatches target)

end Azalea

namespace Azalea

/-! ## Data model (registry-side and persisted records) -/

/-- One artifact of a version, flattening the `hashes` dictionary the way the
source reads it (`file["hashes"]["sha512"]`, `file["hashes"].get("sha1")`). -/
structure FileInfo where
  url : String
  filename : String
  sha512 : String
  sha1 : Option String
  deriving Repr, DecidableEq

/-- One entry of a version's `dependencies` list. -/
structure DependencyInfo where
  project_id : String
  dependency_type : String
  deriving Repr, DecidableEq

/-- A registry-side version candidate (`GET /project/{id}/version` element). -/
structure VersionCandidate where
  id : String
  version_number : String
  game_versions : List (List Char)
  loaders : List String
  files : List FileInfo
  dependencies : List DependencyInfo
  deriving Repr, DecidableEq

/-- A registry-side project record (`GET /project/{slug}`). -/
structure Project where
  id : String
  slug : String
  project_type : String
  client_side : String
  server_side : String
  deriving Repr, DecidableEq

/-- A persisted installed entry (one JSON file per installed project). -/
structure InstalledEntry where
  project_id : String
  slug : String
  version_id : String
  version_number : String
  side : String
  file : FileInfo
  explicit : Bool
  dependencies : List String
  deriving Repr, DecidableEq

/-! ## Version resolver (`modrinth.find_best_version`), pure selection core.

The source fetches the version list over HTTP and then filters it; the pure
selection over an already-fetched list is embedded here.  The `any(... for
loader in ("iris", "optifine"))` clause of the source shadows the `loader`
parameter with its own generator variable, so it tests membership of the two
shader aliases, independent of the requested loader. -/

/-- The loader constraint of the filter in `find_best_version`. -/
def loaderAccepts (loader : String) (v : VersionCandidate) : Bool :=
  v.loaders.isEmpty
    || v.loaders.contains loader
    || v.loaders.contains "minecraft"
    || v.loaders.contains "datapack"
    || (["iris", "optifine"].any fun l => v.loaders.contains l)

/-- The full per-candidate filter of `find_best_version`. -/
def versionFilter (mc : List Char) (loader : String) (v : VersionCandidate) : Bool :=
  mc_version_matches mc v.game_versions && loaderAccepts loader v

/-- `modrinth.find_best_version`'s selection: keep the candidates passing the
filter, return the first one, `None` when the filtered list is empty. -/
def find_best_version (versions : List VersionCandidate) (mc : List Char)
    (loader : String) : Option VersionCandidate :=
  (versions.filter (versionFilter mc loader)).head?

/-- Spec-side reading of the filter, as the claim words it: the game-version
match holds and the loader constraint holds (no declared loaders, requested
loader present, universal marker present, or a shader alias present). -/
def SpecFilter (mc : List Char) (loader : String) (v : VersionCandidate) : Prop :=
  mc_version_matches mc v.game_versions = true ∧
    (v.loaders = [] ∨ loader ∈ v.loaders ∨ "minecraft" ∈ v.loaders ∨
      "datapack" ∈ v.loaders ∨ "iris" ∈ v.loaders ∨ "optifine" ∈ v.loaders)

instance (mc : List Char) (loader : String) (v : VersionCandidate) :
    Decidable (SpecFilter mc loader v) := by
  unfold SpecFilter
  infer_instance

/-! ## Pack configuration and store -/

/-- The persisted pack configuration (`azalea.json`). -/
structure PackConfig where
  name : String
  author : String
  version : String
  license : String
  minecraft_version : List Char
  loader : String
  loader_version : String
  deriving Repr, DecidableEq

/-- The three category buckets `commands.py` operates on (its `config.py`
defines no datapack directory). -/
structure Store where
  mods : List InstalledEntry
  resourcepacks : List InstalledEntry
  shaderpacks : List InstalledEntry
  deriving Repr, DecidableEq

/-! ## Check (`commands.check`) -/

/-- The inline loader constraint used by `check` (and by `upgrade`): note it
lacks the `"datapack"` and `"iris"`/`"optifine"` clauses of
`find_best_version`. -/
def checkLoaderAccepts (loader : String) (v : VersionCandidate) : Bool :=
  v.loaders.isEmpty || v.loaders.contains loader || v.loaders.contains "minecraft"

/-- The per-entry compatibility test of `check`/`upgrade`: some fetched
candidate supports the target game version and passes the inline loader
constraint. -/
def checkCompatible (target : List Char) (loader : String)
    (versions : List VersionCandidate) : Bool :=
  versions.any fun v =>
    mc_version_matches target v.game_versions && checkLoaderAccepts loader v

/-- `commands.check`: over the mod bucket, refetch each entry's version list
(`versionsOf` stands for the HTTP fetch) and report the slugs with no
compatible candidate.  The store and configuration are returned unchanged:
the source only reads them. -/
def check (cfg : PackConfig) (versionsOf : String → List VersionCandidate)
    (target : List Char) (store : Store) :
    List String × Store × PackConfig :=
  ((store.mods.filter fun m =>
      !(checkCompatible target cfg.loader (versionsOf m.project_id))).map
        (fun m => m.slug),
    store, cfg)

/-! ## Upgrade (`commands.upgrade`) -/

/-- The observable outcome of an upgrade attempt. -/
inductive UpgradeOutcome where
  | alreadyCurrent
  | blocked (slugs : List String)
  | upgraded
  deriving Repr, DecidableEq

/-- `commands.upgrade` after the target version has been resolved: no-op when
the target equals the current version; otherwise scan the mod bucket with the
same compatibility test as `check`, abort (returning the configuration and
store untouched) when any entry is incompatible, and only then commit the new
game version and re-resolve the Fabric loader. -/
def upgrade (cfg : PackConfig) (versionsOf : String → List VersionCandidate)
    (target_mc : List Char) (latestFabric : List Char → Option String)
    (store : Store) : PackConfig × Store × UpgradeOutcome :=
  if target_mc == cfg.minecraft_version then
    (cfg, store, .alreadyCurrent)
  else
    let incompatible :=
      (store.mods.filter fun m =>
          !(checkCompatible target_mc cfg.loader (versionsOf m.project_id))).map
        (fun m => m.slug)
    if incompatible.isEmpty then
      let cfg1 := { cfg with minecraft_version := target_mc }
      let cfg2 :=
        if cfg1.loader == "fabric" then
          match latestFabric target_mc with
          | some nl =>
            if nl == cfg1.loader_version then cfg1
            else { cfg1 with loader_version := nl }
          | none => cfg1
        else cfg1
      (cfg2, store, .upgraded)
    else
      (cfg, store, .blocked incompatible)

/-! ## UpdateAll (`commands.update_all`) -/

/-- The per-entry outcome buckets of `update_all`. -/
inductive UpdateStatus where
  | updated
  | skipped
  | failed
  deriving Repr, DecidableEq

/-- The required-dependency projection used when persisting an entry. -/
def requiredDeps (v : VersionCandidate) : List String :=
  (v.dependencies.filter fun d => d.dependency_type == "required").map
    (fun d => d.project_id)

/-- The body of `update_all`'s per-entry loop.  `versionsOf` returns
`Except`: an `error` stands for the fetch/parse exception the source catches
per entry; an empty `files` list stands for the `files[0]` IndexError, also
caught by the same handler. -/
def processEntry (mc : List Char) (loader : String) (force : Bool)
    (versionsOf : String → Except String (List VersionCandidate))
    (e : InstalledEntry) : InstalledEntry × UpdateStatus :=
  match versionsOf e.project_id with
  | .error _ => (e, .failed)
  | .ok versions =>
    match find_best_version versions mc loader with
    | none => (e, .failed)
    | some newest =>
      if newest.id == e.version_id && !force then (e, .skipped)
      else
        match newest.files with
        | [] => (e, .failed)
        | file :: _ =>
          ({ e with
              version_id := newest.id,
              version_number := newest.version_number,
              file := file,
              dependencies := requiredDeps newest }, .updated)

/-- One bucket of `update_all`: each entry is processed independently; the
per-entry statuses are reported with the entry's slug. -/
def updateBucket (mc : List Char) (loader : String) (force : Bool)
    (versionsOf : String → Except String (List VersionCandidate))
    (es : List InstalledEntry) :
    List InstalledEntry × List (String × UpdateStatus) :=
  (es.map (fun e => (processEntry mc loader force versionsOf e).1),
   es.map (fun e => (e.slug, (processEntry mc loader force versionsOf e).2)))

/-- `commands.update_all`: the three buckets are processed independently. -/
def update_all (cfg : PackConfig) (force : Bool)
    (versionsOf : String → Except String (List VersionCandidate))
    (store : Store) : Store × List (String × UpdateStatus) :=
  let m := updateBucket cfg.minecraft_version cfg.loader force versionsOf store.mods
  let r := updateBucket cfg.minecraft_version cfg.loader force versionsOf store.resourcepacks
  let s := updateBucket cfg.minecraft_version cfg.loader force versionsOf store.shaderpacks
  ({ mods := m.1, resourcepacks := r.1, shaderpacks := s.1 },
   m.2 ++ r.2 ++ s.2)

/-! ## Prune (`commands.prune_unused_deps`) -/

/-- The `by_id` dictionary built by `prune_unused_deps`: a Python dict
comprehension keeps the last entry for a repeated key, hence the lookup over
the reversed list. -/
def byId (mods : List InstalledEntry) (p : String) : Option InstalledEntry :=
  mods.reverse.find? (fun m => m.project_id == p)

/-- The project ids of the explicit entries: the seed of the `needed` set. -/
def explicitIds (mods : List InstalledEntry) : List String :=
  (mods.filter (fun m => m.explicit)).map (fun m => m.project_id)

/-- Python `for dep in deps: if dep not in needed: needed.add(dep);
stack.append(dep)`, on a `(needed, stack)` accumulator (stack top first). -/
def pushDeps (deps : List String) (acc : Finset String × List String) :
    Finset String × List String :=
  deps.foldl
    (fun acc d => if d ∈ acc.1 then acc else (insert d acc.1, d :: acc.2))
    acc

/-- The `while stack:` loop of `prune_unused_deps`, with explicit fuel.
Every run in the source terminates; `closureAux_isSome` below shows the fuel
chosen in `pruneNeeded` always suffices. -/
def closureAux (mods : List InstalledEntry) :
    Nat → Finset String → List String → Option (Finset String)
  | _, needed, [] => some needed
  | 0, _, _ :: _ => none
  | fuel + 1, needed, cur :: stack =>
    match byId mods cur with
    | none => closureAux mods fuel needed stack
    | some m =>
      let acc := pushDeps m.dependencies (needed, stack)
      closureAux mods fuel acc.1 acc.2

/-- Every project id mentioned anywhere in the mod bucket. -/
def idUniverse (mods : List InstalledEntry) : Finset String :=
  (explicitIds mods).toFinset ∪ (mods.map (fun m => m.project_id)).toFinset ∪
    ((mods.map (fun m => m.dependencies)).flatten).toFinset

/-- The fixpoint of the mark phase: the `needed` set when the loop ends. -/
def pruneNeeded (mods : List InstalledEntry) : Finset String :=
  (closureAux mods (2 * (idUniverse mods).card + (explicitIds mods).dedup.length + 1)
      (explicitIds mods).toFinset (explicitIds mods).dedup).getD
    (explicitIds mods).toFinset

/-- `commands.prune_unused_deps` on the mod bucket: delete every entry whose
project id is not needed and report the deleted slugs (in bucket order);
the second component is the surviving bucket. -/
def prune_unused_deps (mods : List InstalledEntry) :
    List String × List InstalledEntry :=
  ((mods.filter (fun m => decide (m.project_id ∉ pruneNeeded mods))).map
      (fun m => m.slug),
   mods.filter (fun m => decide (m.project_id ∈ pruneNeeded mods)))

/-- `prune_unused_deps` at the store level: the source only globs the mod
directory, so the other buckets pass through untouched. -/
def prune_store (s : Store) : List String × Store :=
  let pr := prune_unused_deps s.mods
  (pr.1, { s with mods := pr.2 })

/-- Reachability along recorded dependency edges from the explicit entries:
the spec's derived "needed" set. -/
inductive Reach (mods : List InstalledEntry) : String → Prop
  | root (m : InstalledEntry) (hm : m ∈ mods) (hx : m.explicit = true) :
      Reach mods m.project_id
  | step (p : String) (m : InstalledEntry) (d : String) (hp : Reach mods p)
      (hm : byId mods p = some m) (hd : d ∈ m.dependencies) : Reach mods d

/-- The invariant of the mark loop: every needed id is either still waiting
on the stack or its dependencies have already been folded into `needed`. -/
def StackInv (mods : List InstalledEntry) (needed : Finset String)
    (stack : List String) : Prop :=
  ∀ p ∈ needed, p ∈ stack ∨
    ∀ m, byId mods p = some m → ∀ d ∈ m.dependencies, d ∈ needed

/-! ## Resolution engine (`commands.install_mod`) -/

/-- The four category directories.  `commands.py` never uses `datapacks`
(its `config.py` does not define it); `cli.py` does. -/
inductive Bucket where
  | mods
  | resourcepacks
  | shaderpacks
  | datapacks
  deriving Repr, DecidableEq

/-- Bucket choice of `commands.install_mod`: `modpack` is rejected (`none`),
`resourcepack` and `shader` get their own buckets, everything else —
including `"datapack"` — falls into the mod bucket. -/
def target_dir_commands (project_type : String) : Option Bucket :=
  if project_type == "modpack" then none
  else if project_type == "resourcepack" then some .resourcepacks
  else if project_type == "shader" then some .shaderpacks
  else some .mods

/-- Bucket choice of `cli.install_mod`: identical except that `"datapack"`
has its own branch and bucket. -/
def target_dir_cli (project_type : String) : Option Bucket :=
  if project_type == "modpack" then none
  else if project_type == "resourcepack" then some .resourcepacks
  else if project_type == "shader" then some .shaderpacks
  else if project_type == "datapack" then some .datapacks
  else some .mods

/-- The install graph store as files on disk: one record per (bucket, slug)
path. -/
abbrev KStore := List (Bucket × String × InstalledEntry)

/-- Read the record at `bucket/slug.json`, if present. -/
def storeFind (s : KStore) (b : Bucket) (slug : String) :
    Option InstalledEntry :=
  (s.find? (fun x => x.1 == b && x.2.1 == slug)).map (fun x => x.2.2)

/-- Overwrite the record at `bucket/slug.json`. -/
def storeWrite (s : KStore) (b : Bucket) (slug : String)
    (e : InstalledEntry) : KStore :=
  (b, slug, e) :: s.filter (fun x => !(x.1 == b && x.2.1 == slug))

/-- Observable side effects of a run: version-list fetches and record
writes.  (Project resolution also touches the network on every call; the
events here count the version resolution and persistence steps, which are
what the idempotence property is about.) -/
inductive Event where
  | fetchVersions (pid : String)
  | writeEntry (b : Bucket) (slug : String)
  deriving Repr, DecidableEq

/-- The registry as seen by the resolution engine: `resolveP` is
`resolve_project` (identifier to project, interactive fallback abstracted as
part of the function) and `versionsOf` is the version-list endpoint. -/
structure Registry where
  resolveP : String → Project
  versionsOf : String → List VersionCandidate

/-- Mutable state of one process: the shared `installed` visited set, the
on-disk store, and the event trace. -/
structure IState where
  visited : List String
  store : KStore
  events : List Event
  deriving Repr, DecidableEq

/-- The `side` derivation from the project's `client_side`/`server_side`. -/
def deriveSide (proj : Project) : String :=
  let cs := proj.client_side != "unsupported"
  let ss := proj.server_side != "unsupported"
  if cs && ss then "both"
  else if cs then "client"
  else if ss then "server"
  else "unknown"

/-- The record `commands.install_mod` persists. -/
def mkInstallData (proj : Project) (version : VersionCandidate)
    (file : FileInfo) (explicit : Bool) : InstalledEntry :=
  { project_id := proj.id
    slug := proj.slug
    version_id := version.id
    version_number := version.version_number
    side := deriveSide proj
    file := { url := file.url, filename := file.filename,
              sha512 := file.sha512, sha1 := file.sha1 }
    explicit := explicit
    dependencies := requiredDeps version }

/-- `commands.install_mod` as a depth-first worklist over `(identifier,
explicit)` jobs: processing a job either hits the visited set (promotion
rule), or resolves a version, persists the record and prepends its required
dependencies as implicit jobs — exactly the recursion of the source, made
fuel-explicit.  The `files[0]` IndexError of the source is the `.error`
outcome (it aborts the whole call; disk writes made so far survive). -/
def install_many (reg : Registry) (mc : List Char) (loader : String) :
    Nat → List (String × Bool) → IState → Except IState IState
  | _, [], st => .ok st
  | 0, _ :: _, st => .error st
  | fuel + 1, (identifier, explicit) :: rest, st =>
    let proj := reg.resolveP identifier
    let slug := proj.slug
    match target_dir_commands proj.project_type with
    | none => install_many reg mc loader fuel rest st
    | some bucket =>
      if slug ∈ st.visited then
        if explicit then
          match storeFind st.store bucket slug with
          | some data =>
            if data.explicit then install_many reg mc loader fuel rest st
            else
              install_many reg mc loader fuel rest
                { st with
                    store := storeWrite st.store bucket slug
                      { data with explicit := true }
                    events := st.events ++ [.writeEntry bucket slug] }
          | none => install_many reg mc loader fuel rest st
        else install_many reg mc loader fuel rest st
      else
        let st1 : IState :=
          { st with visited := slug :: st.visited
                    events := st.events ++ [.fetchVersions proj.id] }
        match find_best_version (reg.versionsOf proj.id) mc loader with
        | none => install_many reg mc loader fuel rest st1
        | some version =>
          match version.files with
          | [] => .error st1
          | file :: _ =>
            let data := mkInstallData proj version file explicit
            let st2 : IState :=
              { st1 with
                  store := storeWrite st1.store bucket slug data
                  events := st1.events ++ [.writeEntry bucket slug] }
            install_many reg mc loader fuel
              ((requiredDeps version).map (fun d => (d, false)) ++ rest) st2

/-- A single top-level `install_mod(identifier, installed, explicit)` call. -/
def install_mod (reg : Registry) (mc : List Char) (loader : String)
    (fuel : Nat) (identifier : String) (explicit : Bool) (st : IState) :
    Except IState IState :=
  install_many reg mc loader fuel [(identifier, explicit)] st

/-- The state a run left behind, whether it finished or raised. -/
def resState : Except IState IState → IState
  | .ok st => st
  | .error st => st

/-- Number of version-list fetches for one project id in a trace. -/
def countFetch (pid : String) (evs : List Event) : Nat :=
  evs.countP (fun e => e == .fetchVersions pid)

/-- Number of record writes for one slug (any bucket) in a trace. -/
def countWriteSlug (slug : String) (evs : List Event) : Nat :=
  evs.countP (fun e =>
    match e with
    | .writeEntry _ s => s == slug
    | _ => false)

/-! ## `cli.install_mod`, for comparison with `commands.install_mod` -/

/-- The `file` sub-record persisted by `cli.install_mod`: unlike
`commands.install_mod` it records no `sha1`. -/
structure CliFileRecord where
  url : String
  filename : String
  sha512 : String
  deriving Repr, DecidableEq

/-- The record `cli.install_mod` persists. -/
structure CliInstalledEntry where
  project_id : String
  slug : String
  version_id : String
  version_number : String
  side : String
  file : CliFileRecord
  explicit : Bool
  dependencies : List String
  deriving Repr, DecidableEq

def mkCliInstallData (proj : Project) (version : VersionCandidate)
    (file : FileInfo) (explicit : Bool) : CliInstalledEntry :=
  { project_id := proj.id
    slug := proj.slug
    version_id := version.id
    version_number := version.version_number
    side := deriveSide proj
    file := { url := file.url, filename := file.filename,
              sha512 := file.sha512 }
    explicit := explicit
    dependencies := requiredDeps version }

/-- Forget the `sha1` field of a persisted file record. -/
def forgetSha1 (r : FileInfo) : CliFileRecord :=
  ⟨r.url, r.filename, r.sha512⟩

/-! ## Concrete data used by witnesses and counterexamples -/

def mc121 : List Char := ['1', '.', '2', '1']

def mc122 : List Char := ['1', '.', '2', '2']

def exFileA : FileInfo := ⟨"https://cdn/a.jar", "a.jar", "sha512-a", some "sha1-a"⟩

def exFileD : FileInfo := ⟨"https://cdn/d.jar", "d.jar", "sha512-d", none⟩

def exProjA : Project := ⟨"pidA", "a", "mod", "required", "required"⟩

def exProjD : Project := ⟨"pidD", "d", "mod", "required", "required"⟩

/-- A release of project A that requires project D. -/
def exVerA : VersionCandidate :=
  ⟨"vA1", "1.0.0", [mc121], ["fabric"], [exFileA], [⟨"pidD", "required"⟩]⟩

/-- A dependency-free release of project D. -/
def exVerD : VersionCandidate :=
  ⟨"vD1", "2.0.0", [mc121], ["fabric"], [exFileD], []⟩

/-- A release tagged only for an older game version. -/
def exVerOld : VersionCandidate :=
  ⟨"vOld", "0.9.0", [['1', '.', '1', '9']], ["fabric"], [exFileD], []⟩

/-- A shader-style release tagged with the `iris` loader alias only. -/
def exVerIris : VersionCandidate :=
  ⟨"vI1", "3.0.0", [mc121], ["iris"], [exFileD], []⟩

/-- A registry with the two projects A and D. -/
def exReg : Registry :=
  ⟨fun s => if s == "pidD" then exProjD else exProjA,
   fun p => if p == "pidA" then [exVerA] else [exVerD]⟩

/-- D's record as written by an explicit install. -/
def exEntryD : InstalledEntry := mkInstallData exProjD exVerD exFileD true

/-- Initial state for the demotion counterexample: nothing visited yet, D
already persisted as an explicit entry. -/
def exSt0 : IState := ⟨[], [(Bucket.mods, "d", exEntryD)], []⟩

/-- The state after one fresh explicit install of D into an empty pack. -/
def wSt1 : IState :=
  ⟨["d"], [(Bucket.mods, "d", mkInstallData exProjD exVerD exFileD true)],
   [.fetchVersions "pidD", .writeEntry Bucket.mods "d"]⟩

/-- D persisted as an implicit (dependency-pulled) entry. -/
def wEntryDImp : InstalledEntry := mkInstallData exProjD exVerD exFileD false

/-- A state in which D is visited and persisted implicitly. -/
def wStImp : IState := ⟨["d"], [(Bucket.mods, "d", wEntryDImp)], []⟩

/-- `wStImp` after the promotion of D to an explicit entry. -/
def wStPromoted : IState :=
  ⟨["d"], [(Bucket.mods, "d", { wEntryDImp with explicit := true })],
   [.writeEntry Bucket.mods "d"]⟩

/-- Two-entry install graph: explicit A depending on implicit D. -/
def wEntryA : InstalledEntry :=
  ⟨"pidA", "a", "vA1", "1.0.0", "both", exFileA, true, ["pidD"]⟩

def wEntryD : InstalledEntry :=
  ⟨"pidD", "d", "vD1", "2.0.0", "both", exFileD, false, []⟩

def wMods : List InstalledEntry := [wEntryA, wEntryD]

/-- A pack configuration on Minecraft 1.21 with the Fabric loader. -/
def exCfg : PackConfig :=
  ⟨"My Pack", "Created by Azalea", "1.0.0", "", mc121, "fabric", "0.16.9"⟩

/-- A mod-bucket entry used by the check/upgrade examples. -/
def cEntry : InstalledEntry :=
  ⟨"pidS", "s", "vS1", "1.2.3", "both", exFileD, true, []⟩

def cStore : Store := ⟨[cEntry], [], []⟩

/-- A fetcher that knows project D and fails for everything else. -/
def exVersionsOf : String → Except String (List VersionCandidate) :=
  fun p => if p == "pidD" then .ok [exVerD] else .error "HTTP 500"

/-- D persisted at an outdated version. -/
def uEntry : InstalledEntry :=
  ⟨"pidD", "d", "vD0", "1.9.0", "both", exFileD, false, []⟩

/-! ## Basic lemmas about the string primitives -/

theorem strStartsWith_iff (s pat : List Char) :
    strStartsWith s pat = true ↔ ∃ t, s = pat ++ t := by
  induction pat generalizing s with
  | nil => simp [strStartsWith]
  | cons d ds ih =>
    cases s with
    | nil =>
      simp [strStartsWith]
    | cons c cs =>
      simp only [strStartsWith, Bool.and_eq_true, beq_iff_eq, ih, List.cons_append,
        List.cons.injEq]
      constructor
      · rintro ⟨rfl, t, rfl⟩
        exact ⟨t, rfl, rfl⟩
      · rintro ⟨t, rfl, rfl⟩
        exact ⟨rfl, t, rfl⟩

theorem strEndsWith_append (l pat : List Char) :
    strEndsWith (l ++ pat) pat = true := by
  rw [strEndsWith, strStartsWith_iff]
  exact ⟨l.reverse, by simp⟩

theorem pyDropLast2_append (l : List Char) (a b : Char) :
    pyDropLast2 (l ++ [a, b]) = l := by
  simp only [pyDropLast2, List.length_append, List.length_cons, List.length_nil]
  have h : l.length + 2 - 2 = l.length := by omega
  rw [h, List.take_left]

theorem strEndsWith_dotX_of_append (p : List Char) :
    strEndsWith (p ++ dotX) dotX = true :=
  strEndsWith_append p dotX

theorem pyDropLast2_dotX (p : List Char) :
    pyDropLast2 (p ++ dotX) = p :=
  pyDropLast2_append p '.' 'x'

theorem ne_append_dotX (p v : List Char) (hv : strEndsWith v dotX = false) :
    ¬(p ++ dotX = v) := by
  intro h
  rw [← h, strEndsWith_dotX_of_append] at hv
  simp at hv

/-- A supported entry `p ++ ".x"` accepts a non-wildcard target `v` exactly
when `v = p` or `v` starts with `p ++ "."`. -/
theorem mc_wildcard_entry (p v : List Char) (hv : strEndsWith v dotX = false) :
    mc_version_matches v [p ++ dotX] = true ↔
      v = p ∨ strStartsWith v (p ++ dotC) = true := by
  simp only [mc_version_matches, List.any_cons, List.any_nil, Bool.or_false,
    versionEntryMatches, strEndsWith_dotX_of_append, pyDropLast2_dotX, hv,
    Bool.false_and, Bool.true_and, Bool.or_eq_true, beq_iff_eq]
  constructor
  · rintro (h | h)
    · exact absurd h (ne_append_dotX p v hv)
    · exact h
  · intro h
    exact Or.inr h

/-- A wildcard target `p ++ ".x"` accepts a non-wildcard supported entry `v`
exactly when `v = p` or `v` starts with `p ++ "."`. -/
theorem mc_wildcard_target (p v : List Char) (hv : strEndsWith v dotX = false) :
    mc_version_matches (p ++ dotX) [v] = true ↔
      v = p ∨ strStartsWith v (p ++ dotC) = true := by
  simp only [mc_version_matches, List.any_cons, List.any_nil, Bool.or_false,
    versionEntryMatches, strEndsWith_dotX_of_append, pyDropLast2_dotX, hv,
    Bool.false_and, Bool.true_and, Bool.or_false, Bool.or_eq_true, beq_iff_eq]
  constructor
  · rintro (h | h)
    · exact absurd h.symm (ne_append_dotX p v hv)
    · exact h
  · intro h
    exact Or.inr h

/-- Exact string equality with some supported entry is always a match. -/
theorem mc_exact_match (t : List Char) (supported : List (List Char))
    (h : t ∈ supported) : mc_version_matches t supported = true := by
  rw [mc_version_matches, List.any_eq_true]
  exact ⟨t, h, by simp [versionEntryMatches]⟩

/-- Completeness: every match is produced by one of the three clauses of the
loop body (exact equality, supported-side wildcard, target-side wildcard). -/
theorem mc_matches_cases (t : List Char) (supported : List (List Char))
    (h : mc_version_matches t supported = true) :
    ∃ v ∈ supported, versionEntryMatches t v = true := by
  rw [mc_version_matches, List.any_eq_true] at h
  exact h

theorem versionFilter_iff_SpecFilter (mc : List Char) (loader : String)
    (v : VersionCandidate) :
    versionFilter mc loader v = true ↔ SpecFilter mc loader v := by
  simp only [versionFilter, loaderAccepts, SpecFilter, Bool.and_eq_true,
    Bool.or_eq_true, List.isEmpty_iff, List.any_cons, List.any_nil,
    List.elem_iff, Bool.or_false]
  tauto

theorem find_best_version_none_iff (versions : List VersionCandidate)
    (mc : List Char) (loader : String) :
    find_best_version versions mc loader = none ↔
      ∀ v ∈ versions, ¬ SpecFilter mc loader v := by
  simp only [find_best_version, List.head?_eq_none_iff, List.filter_eq_nil_iff,
    versionFilter_iff_SpecFilter]

theorem find_best_version_some (versions : List VersionCandidate)
    (mc : List Char) (loader : String) (v : VersionCandidate)
    (h : find_best_version versions mc loader = some v) :
    SpecFilter mc loader v ∧
      ∃ l₁ l₂, versions = l₁ ++ v :: l₂ ∧ ∀ u ∈ l₁, ¬ SpecFilter mc loader u := by
  induction versions with
  | nil => simp [find_best_version] at h
  | cons w ws ih =>
    by_cases hw : versionFilter mc loader w = true
    · have hv : w = v := by
        simp [find_best_version, List.filter_cons, hw] at h
        exact h
      subst hv
      exact ⟨(versionFilter_iff_SpecFilter mc loader w).mp hw, [], ws, rfl,
        by simp⟩
    · have h' : find_best_version ws mc loader = some v := by
        simpa [find_best_version, List.filter_cons, hw] using h
      obtain ⟨hspec, l₁, l₂, rfl, hall⟩ := ih h'
      refine ⟨hspec, w :: l₁, l₂, rfl, ?_⟩
      intro u hu
      rcases List.mem_cons.mp hu with rfl | hu
      · exact fun hc => hw ((versionFilter_iff_SpecFilter mc loader u).mpr hc)
      · exact hall u hu

/-! ## Lemmas on the keyed store -/

theorem find?_filter_of_imp {α : Type} (p q : α → Bool) (l : List α)
    (h : ∀ x, p x = true → q x = true) :
    (l.filter q).find? p = l.find? p := by
  induction l with
  | nil => rfl
  | cons a as ih =>
    by_cases hq : q a = true
    · by_cases hp : p a = true
      · simp [List.filter_cons, hq, List.find?_cons, hp]
      · simp only [List.filter_cons, if_pos hq]
        rw [List.find?_cons_of_neg _ (by simp [hp]),
          List.find?_cons_of_neg _ (by simp [hp]), ih]
    · have hp : ¬ p a = true := fun hpa => hq (h a hpa)
      simp only [List.filter_cons, if_neg hq]
      rw [List.find?_cons_of_neg _ (by simp [hp]), ih]

theorem storeFind_storeWrite_same (s : KStore) (b : Bucket) (slug : String)
    (e : InstalledEntry) :
    storeFind (storeWrite s b slug e) b slug = some e := by
  simp [storeFind, storeWrite, List.find?_cons]

theorem storeFind_storeWrite_ne (s : KStore) (b b' : Bucket)
    (slug slug' : String) (e : InstalledEntry)
    (h : ¬(b = b' ∧ slug = slug')) :
    storeFind (storeWrite s b' slug' e) b slug = storeFind s b slug := by
  have hhead : ¬((b' == b && slug' == slug) = true) := by
    simp only [Bool.and_eq_true, beq_iff_eq]
    rintro ⟨rfl, rfl⟩
    exact h ⟨rfl, rfl⟩
  rw [storeFind, storeWrite, List.find?_cons_of_neg _ (by simpa using hhead)]
  rw [find?_filter_of_imp _ _ s ?_]
  · rfl
  · intro x hx
    simp only [Bool.and_eq_true, beq_iff_eq] at hx
    simp only [Bool.not_eq_true', Bool.and_eq_false_iff]
    by_contra hc
    simp only [Bool.and_eq_false_iff, not_or, Bool.not_eq_false] at hc
    obtain ⟨h1, h2⟩ := hc
    rw [beq_iff_eq] at h1 h2
    exact h ⟨hx.1 ▸ h1.symm ▸ rfl, hx.2 ▸ h2.symm ▸ rfl⟩

/-! ## The untouched-project invariant of the resolution engine -/

theorem countFetch_append (pid : String) (a b : List Event) :
    countFetch pid (a ++ b) = countFetch pid a + countFetch pid b := by
  simp [countFetch, List.countP_append]

theorem countWriteSlug_append (slug : String) (a b : List Event) :
    countWriteSlug slug (a ++ b) =
      countWriteSlug slug a + countWriteSlug slug b := by
  simp [countWriteSlug, List.countP_append]

/-- While a project's slug is in the visited set, a batch of implicit jobs
never fetches that project's version list again, never writes its record,
and keeps its slug visited — the cycle/duplicate suppression of the engine.
`hcohid` says the registry is coherent: no other project carries this
project's id. -/
theorem install_many_untouched (reg : Registry) (mc : List Char)
    (loader : String) (proj : Project)
    (hcohid : ∀ s, (reg.resolveP s).id = proj.id → reg.resolveP s = proj) :
    ∀ (fuel : Nat) (jobs : List (String × Bool)) (st : IState),
      (∀ j ∈ jobs, j.2 = false) → proj.slug ∈ st.visited →
      countFetch proj.id
          (resState (install_many reg mc loader fuel jobs st)).events =
        countFetch proj.id st.events ∧
      countWriteSlug proj.slug
          (resState (install_many reg mc loader fuel jobs st)).events =
        countWriteSlug proj.slug st.events ∧
      (∀ b, storeFind
          (resState (install_many reg mc loader fuel jobs st)).store b proj.slug =
        storeFind st.store b proj.slug) ∧
      proj.slug ∈ (resState (install_many reg mc loader fuel jobs st)).visited := by
  intro fuel
  induction fuel with
  | zero =>
    intro jobs st hjobs hvis
    cases jobs with
    | nil => exact ⟨rfl, rfl, fun b => rfl, hvis⟩
    | cons j rest => exact ⟨rfl, rfl, fun b => rfl, hvis⟩
  | succ fuel ih =>
    intro jobs st hjobs hvis
    cases jobs with
    | nil => exact ⟨rfl, rfl, fun b => rfl, hvis⟩
    | cons j rest =>
      obtain ⟨id, ex⟩ := j
      have hex : ex = false := hjobs (id, ex) (List.mem_cons_self _ _)
      subst hex
      have hrest : ∀ j ∈ rest, j.2 = false := fun j hj =>
        hjobs j (List.mem_cons_of_mem _ hj)
      cases hty : target_dir_commands (reg.resolveP id).project_type with
      | none =>
        simp only [install_many, hty]
        exact ih rest st hrest hvis
      | some bucket =>
        by_cases hv : (reg.resolveP id).slug ∈ st.visited
        · simp only [install_many, hty, if_pos hv, Bool.false_eq_true, if_false]
          exact ih rest st hrest hvis
        · have hslug : (reg.resolveP id).slug ≠ proj.slug := by
            intro hc
            exact hv (hc ▸ hvis)
          have hid : (reg.resolveP id).id ≠ proj.id := by
            intro hc
            exact hslug (by rw [hcohid id hc])
          cases hsel : find_best_version (reg.versionsOf (reg.resolveP id).id)
              mc loader with
          | none =>
            simp only [install_many, hty, if_neg hv, hsel]
            set st1 : IState :=
              { st with visited := (reg.resolveP id).slug :: st.visited
                        events := st.events ++
                          [.fetchVersions (reg.resolveP id).id] } with hst1
            have hv1 : proj.slug ∈ st1.visited := List.mem_cons_of_mem _ hvis
            obtain ⟨h1, h2, h3, h4⟩ := ih rest st1 hrest hv1
            refine ⟨?_, ?_, ?_, h4⟩
            · rw [h1, hst1]
              simp [countFetch_append, countFetch, hid, Ne.symm hid]
            · rw [h2, hst1]
              simp [countWriteSlug_append, countWriteSlug]
            · exact fun b => h3 b
          | some version =>
            cases hfiles : version.files with
            | nil =>
              simp only [install_many, hty, if_neg hv, hsel, hfiles, resState]
              refine ⟨?_, ?_, ?_, List.mem_cons_of_mem _ hvis⟩
              · simp [countFetch_append, countFetch, hid, Ne.symm hid]
              · simp [countWriteSlug_append, countWriteSlug]
              · simp
            | cons file fs =>
              simp only [install_many, hty, if_neg hv, hsel, hfiles]
              set st2 : IState :=
                { st with
                    visited := (reg.resolveP id).slug :: st.visited
                    store := storeWrite st.store bucket (reg.resolveP id).slug
                      (mkInstallData (reg.resolveP id) version file false)
                    events := (st.events ++
                        [.fetchVersions (reg.resolveP id).id]) ++
                      [.writeEntry bucket (reg.resolveP id).slug] } with hst2
              have hv2 : proj.slug ∈ st2.visited := List.mem_cons_of_mem _ hvis
              have hjobs2 : ∀ j ∈ (requiredDeps version).map (fun d => (d, false)) ++ rest,
                  j.2 = false := by
                intro j hj
                rcases List.mem_append.mp hj with hj | hj
                · obtain ⟨d, _, rfl⟩ := List.mem_map.mp hj
                  rfl
                · exact hrest j hj
              obtain ⟨h1, h2, h3, h4⟩ := ih _ st2 hjobs2 hv2
              refine ⟨?_, ?_, ?_, h4⟩
              · rw [h1, hst2]
                simp [countFetch_append, countFetch, hid, Ne.symm hid]
              · rw [h2, hst2]
                simp [countWriteSlug_append, countWriteSlug, hslug]
              · intro b
                rw [h3 b, hst2]
                exact storeFind_storeWrite_ne st.store b bucket proj.slug
                  (reg.resolveP id).slug _ (fun hc => hslug hc.2.symm)

/-- A completed fresh explicit install: exactly one version fetch and one
record write for the requested project, and its persisted record is the
explicit install data of the selected version's first file. -/
theorem install_fresh_run (reg : Registry) (mc : List Char) (loader : String)
    (identifier : String) (st0 : IState) (fuel : Nat) (st1 : IState)
    (bucket : Bucket) (v : VersionCandidate) (f : FileInfo) (fs : List FileInfo)
    (hty : target_dir_commands (reg.resolveP identifier).project_type = some bucket)
    (hvis : (reg.resolveP identifier).slug ∉ st0.visited)
    (hsel : find_best_version (reg.versionsOf (reg.resolveP identifier).id)
      mc loader = some v)
    (hfiles : v.files = f :: fs)
    (hcohid : ∀ s, (reg.resolveP s).id = (reg.resolveP identifier).id →
      reg.resolveP s = reg.resolveP identifier)
    (hrun : install_mod reg mc loader (fuel + 1) identifier true st0 = .ok st1) :
    countFetch (reg.resolveP identifier).id st1.events =
      countFetch (reg.resolveP identifier).id st0.events + 1 ∧
    countWriteSlug (reg.resolveP identifier).slug st1.events =
      countWriteSlug (reg.resolveP identifier).slug st0.events + 1 ∧
    storeFind st1.store bucket (reg.resolveP identifier).slug =
      some (mkInstallData (reg.resolveP identifier) v f true) ∧
    (reg.resolveP identifier).slug ∈ st1.visited := by
  rw [install_mod] at hrun
  simp only [install_many, hty, if_neg hvis, hsel, hfiles] at hrun
  set st2 : IState :=
    { st0 with
        visited := (reg.resolveP identifier).slug :: st0.visited
        store := storeWrite st0.store bucket (reg.resolveP identifier).slug
          (mkInstallData (reg.resolveP identifier) v f true)
        events := (st0.events ++
            [.fetchVersions (reg.resolveP identifier).id]) ++
          [.writeEntry bucket (reg.resolveP identifier).slug] } with hst2
  have hjobs : ∀ j ∈ (requiredDeps v).map (fun d => (d, false)) ++
      ([] : List (String × Bool)), j.2 = false := by
    intro j hj
    rcases List.mem_append.mp hj with hj | hj
    · obtain ⟨d, _, rfl⟩ := List.mem_map.mp hj
      rfl
    · exact absurd hj (List.not_mem_nil j)
  have hv2 : (reg.resolveP identifier).slug ∈ st2.visited :=
    List.mem_cons_self _ _
  obtain ⟨h1, h2, h3, h4⟩ := install_many_untouched reg mc loader
    (reg.resolveP identifier) hcohid fuel _ st2 hjobs hv2
  have hres : resState (install_many reg mc loader fuel
      ((requiredDeps v).map (fun d => (d, false)) ++ []) st2) = st1 := by
    rw [hrun]
    rfl
  rw [hres] at h1 h2 h3 h4
  refine ⟨?_, ?_, ?_, h4⟩
  · rw [h1, hst2]
    simp [countFetch_append, countFetch]
  · rw [h2, hst2]
    simp [countWriteSlug_append, countWriteSlug]
  · rw [h3 bucket, hst2]
    exact storeFind_storeWrite_same st0.store bucket
      (reg.resolveP identifier).slug _

/-- The visited-hit branch of `install_mod` with an explicit request:
already-explicit entries are left alone, implicit ones are promoted with a
single write and no version fetch. -/
theorem install_visited_branch (reg : Registry) (mc : List Char)
    (loader : String) (identifier : String) (fuel : Nat) (st : IState)
    (bucket : Bucket)
    (hty : target_dir_commands (reg.resolveP identifier).project_type = some bucket)
    (hvis : (reg.resolveP identifier).slug ∈ st.visited) :
    (∀ data, storeFind st.store bucket (reg.resolveP identifier).slug = some data →
      (data.explicit = true →
        install_mod reg mc loader (fuel + 1) identifier true st = .ok st) ∧
      (data.explicit = false →
        install_mod reg mc loader (fuel + 1) identifier true st = .ok
          { st with
              store := storeWrite st.store bucket (reg.resolveP identifier).slug
                { data with explicit := true }
              events := st.events ++
                [.writeEntry bucket (reg.resolveP identifier).slug] })) ∧
    (storeFind st.store bucket (reg.resolveP identifier).slug = none →
      install_mod reg mc loader (fuel + 1) identifier true st = .ok st) := by
  constructor
  · intro data hfind
    constructor
    · intro hexp
      rw [install_mod]
      simp only [install_many, hty, if_pos hvis, if_pos rfl, hfind, hexp,
        if_true]
    · intro hexp
      rw [install_mod]
      simp only [install_many, hty, if_pos hvis, if_pos rfl, hfind, hexp,
        Bool.false_eq_true, if_false]
      simp
  · intro hfind
    rw [install_mod]
    simp only [install_many, hty, if_pos hvis, if_pos rfl, hfind]
    simp

/-! ## Lemmas on `pushDeps` -/

theorem pushDeps_fst_sub (deps : List String) (acc : Finset String × List String) :
    acc.1 ⊆ (pushDeps deps acc).1 := by
  induction deps generalizing acc with
  | nil => simp [pushDeps]
  | cons d ds ih =>
    by_cases hd : d ∈ acc.1
    · simpa [pushDeps, List.foldl_cons, hd] using ih acc
    · calc acc.1 ⊆ insert d acc.1 := Finset.subset_insert d acc.1
        _ ⊆ _ := by
          simpa [pushDeps, List.foldl_cons, hd] using ih (insert d acc.1, d :: acc.2)

theorem pushDeps_mem_fst (deps : List String) (acc : Finset String × List String) :
    ∀ d ∈ deps, d ∈ (pushDeps deps acc).1 := by
  induction deps generalizing acc with
  | nil => simp
  | cons a as ih =>
    intro d hd
    by_cases ha : a ∈ acc.1
    · rcases List.mem_cons.mp hd with rfl | hd
      · have : d ∈ (pushDeps as acc).1 := pushDeps_fst_sub as acc ha
        simpa [pushDeps, List.foldl_cons, ha] using this
      · simpa [pushDeps, List.foldl_cons, ha] using ih acc d hd
    · rcases List.mem_cons.mp hd with rfl | hd
      · have : d ∈ insert d acc.1 := Finset.mem_insert_self d acc.1
        simpa [pushDeps, List.foldl_cons, ha] using
          pushDeps_fst_sub as (insert d acc.1, d :: acc.2) this
      · simpa [pushDeps, List.foldl_cons, ha] using ih (insert a acc.1, a :: acc.2) d hd

theorem pushDeps_fst_cases (deps : List String) (acc : Finset String × List String) :
    ∀ x ∈ (pushDeps deps acc).1, x ∈ acc.1 ∨ x ∈ deps := by
  induction deps generalizing acc with
  | nil => simp [pushDeps]
  | cons a as ih =>
    intro x hx
    by_cases ha : a ∈ acc.1
    · rcases ih acc x (by simpa [pushDeps, List.foldl_cons, ha] using hx) with h | h
      · exact Or.inl h
      · exact Or.inr (List.mem_cons_of_mem a h)
    · rcases ih (insert a acc.1, a :: acc.2) x
        (by simpa [pushDeps, List.foldl_cons, ha] using hx) with h | h
      · rcases Finset.mem_insert.mp h with rfl | h
        · exact Or.inr (List.mem_cons_self x as)
        · exact Or.inl h
      · exact Or.inr (List.mem_cons_of_mem a h)

theorem pushDeps_snd_sup (deps : List String) (acc : Finset String × List String) :
    ∀ x ∈ acc.2, x ∈ (pushDeps deps acc).2 := by
  induction deps generalizing acc with
  | nil => simp [pushDeps]
  | cons a as ih =>
    intro x hx
    by_cases ha : a ∈ acc.1
    · simpa [pushDeps, List.foldl_cons, ha] using ih acc x hx
    · simpa [pushDeps, List.foldl_cons, ha] using
        ih (insert a acc.1, a :: acc.2) x (List.mem_cons_of_mem a hx)

theorem pushDeps_snd_sub_fst (deps : List String) (acc : Finset String × List String)
    (h : ∀ x ∈ acc.2, x ∈ acc.1) :
    ∀ x ∈ (pushDeps deps acc).2, x ∈ (pushDeps deps acc).1 := by
  induction deps generalizing acc with
  | nil => simpa [pushDeps] using h
  | cons a as ih =>
    by_cases ha : a ∈ acc.1
    · intro x hx
      simp only [pushDeps, List.foldl_cons, if_pos ha] at hx ⊢
      exact ih acc h x hx
    · intro x hx
      simp only [pushDeps, List.foldl_cons, if_neg ha] at hx ⊢
      refine ih (insert a acc.1, a :: acc.2) ?_ x hx
      intro y hy
      rcases List.mem_cons.mp hy with rfl | hy
      · exact Finset.mem_insert_self y acc.1
      · exact Finset.mem_insert_of_mem (h y hy)

theorem pushDeps_mem_snd_or_start (deps : List String)
    (acc : Finset String × List String) :
    ∀ d ∈ deps, d ∈ (pushDeps deps acc).2 ∨ d ∈ acc.1 := by
  induction deps generalizing acc with
  | nil => simp
  | cons a as ih =>
    intro d hd
    by_cases ha : a ∈ acc.1
    · rcases List.mem_cons.mp hd with rfl | hd
      · exact Or.inr ha
      · simpa [pushDeps, List.foldl_cons, ha] using ih acc d hd
    · rcases List.mem_cons.mp hd with rfl | hd
      · refine Or.inl ?_
        have : d ∈ (d :: acc.2) := List.mem_cons_self d acc.2
        simpa [pushDeps, List.foldl_cons, ha] using
          pushDeps_snd_sup as (insert d acc.1, d :: acc.2) d this
      · rcases ih (insert a acc.1, a :: acc.2) d hd with h | h
        · exact Or.inl (by simpa [pushDeps, List.foldl_cons, ha] using h)
        · rcases Finset.mem_insert.mp h with rfl | h
          · refine Or.inl ?_
            have : d ∈ (d :: acc.2) := List.mem_cons_self d acc.2
            simpa [pushDeps, List.foldl_cons, ha] using
              pushDeps_snd_sup as (insert d acc.1, d :: acc.2) d this
          · exact Or.inr h

theorem pushDeps_measure (U : Finset String) (deps : List String)
    (acc : Finset String × List String) (hacc : acc.1 ⊆ U)
    (hdeps : ∀ d ∈ deps, d ∈ U) :
    (pushDeps deps acc).1 ⊆ U ∧
      2 * (U.card - (pushDeps deps acc).1.card) + (pushDeps deps acc).2.length ≤
        2 * (U.card - acc.1.card) + acc.2.length := by
  induction deps generalizing acc with
  | nil => exact ⟨hacc, le_refl _⟩
  | cons a as ih =>
    by_cases ha : a ∈ acc.1
    · have := ih acc hacc (fun d hd => hdeps d (List.mem_cons_of_mem a hd))
      simpa [pushDeps, List.foldl_cons, ha] using this
    · have haU : a ∈ U := hdeps a (List.mem_cons_self a as)
      have hacc' : (insert a acc.1 : Finset String) ⊆ U :=
        Finset.insert_subset haU hacc
      have hcard : (insert a acc.1).card = acc.1.card + 1 :=
        Finset.card_insert_of_not_mem ha
      have hlt : acc.1.card < U.card := by
        have hss : acc.1 ⊂ U := by
          rw [Finset.ssubset_iff_of_subset hacc]
          exact ⟨a, haU, ha⟩
        exact Finset.card_lt_card hss
      have := ih (insert a acc.1, a :: acc.2) hacc'
        (fun d hd => hdeps d (List.mem_cons_of_mem a hd))
      refine ⟨by simpa [pushDeps, List.foldl_cons, ha] using this.1, ?_⟩
      have h2 := this.2
      simp only [pushDeps, List.foldl_cons, if_neg ha] at h2 ⊢
      simp only [hcard, List.length_cons] at h2
      omega

/-! ## Lemmas on `byId`, `idUniverse` and `closureAux` -/

theorem byId_eq_some (mods : List InstalledEntry) (p : String)
    (m : InstalledEntry) (h : byId mods p = some m) :
    m ∈ mods ∧ m.project_id = p := by
  have hmem := List.mem_of_find?_eq_some h
  have hpred := List.find?_some h
  exact ⟨List.mem_reverse.mp hmem, by simpa using hpred⟩

theorem deps_sub_universe (mods : List InstalledEntry) (m : InstalledEntry)
    (hm : m ∈ mods) : ∀ d ∈ m.dependencies, d ∈ idUniverse mods := by
  intro d hd
  simp only [idUniverse, Finset.mem_union, List.mem_toFinset, List.mem_flatten,
    List.mem_map]
  exact Or.inr ⟨m.dependencies, ⟨m, hm, rfl⟩, hd⟩

theorem explicitIds_sub_universe (mods : List InstalledEntry) :
    (explicitIds mods).toFinset ⊆ idUniverse mods := by
  intro x hx
  simp only [idUniverse, Finset.mem_union]
  exact Or.inl (Or.inl hx)

theorem closureAux_isSome (mods : List InstalledEntry) :
    ∀ (fuel : Nat) (needed : Finset String) (stack : List String),
      needed ⊆ idUniverse mods →
      2 * ((idUniverse mods).card - needed.card) + stack.length < fuel →
      (closureAux mods fuel needed stack).isSome := by
  intro fuel
  induction fuel with
  | zero => intro needed stack _ h; omega
  | succ fuel ih =>
    intro needed stack hsub h
    cases stack with
    | nil => simp [closureAux]
    | cons cur st =>
      simp only [closureAux]
      cases hby : byId mods cur with
      | none =>
        apply ih needed st hsub
        simp only [List.length_cons] at h
        omega
      | some m =>
        have hm := (byId_eq_some mods cur m hby).1
        have hmeas := pushDeps_measure (idUniverse mods) m.dependencies
          (needed, st) hsub (deps_sub_universe mods m hm)
        have hfst : ((needed, st) : Finset String × List String).1 = needed := rfl
        have hsnd : ((needed, st) : Finset String × List String).2 = st := rfl
        rw [hfst, hsnd] at hmeas
        apply ih _ _ hmeas.1
        have := hmeas.2
        simp only [List.length_cons] at h
        omega

theorem closureAux_mono (mods : List InstalledEntry) :
    ∀ (fuel : Nat) (needed : Finset String) (stack : List String)
      (r : Finset String), closureAux mods fuel needed stack = some r →
      needed ⊆ r := by
  intro fuel
  induction fuel with
  | zero =>
    intro needed stack r h
    cases stack with
    | nil => simp only [closureAux, Option.some.injEq] at h; exact h ▸ le_refl _
    | cons cur st => simp [closureAux] at h
  | succ fuel ih =>
    intro needed stack r h
    cases stack with
    | nil => simp only [closureAux, Option.some.injEq] at h; exact h ▸ le_refl _
    | cons cur st =>
      simp only [closureAux] at h
      cases hby : byId mods cur with
      | none =>
        rw [hby] at h
        exact ih needed st r h
      | some m =>
        rw [hby] at h
        exact (pushDeps_fst_sub m.dependencies (needed, st)).trans
          (ih _ _ r h)

theorem closureAux_sound (mods : List InstalledEntry) :
    ∀ (fuel : Nat) (needed : Finset String) (stack : List String)
      (r : Finset String), closureAux mods fuel needed stack = some r →
      (∀ x ∈ needed, Reach mods x) → (∀ x ∈ stack, x ∈ needed) →
      ∀ x ∈ r, Reach mods x := by
  intro fuel
  induction fuel with
  | zero =>
    intro needed stack r h hre hst
    cases stack with
    | nil =>
      simp only [closureAux, Option.some.injEq] at h
      exact h ▸ hre
    | cons cur st => simp [closureAux] at h
  | succ fuel ih =>
    intro needed stack r h hre hst
    cases stack with
    | nil =>
      simp only [closureAux, Option.some.injEq] at h
      exact h ▸ hre
    | cons cur st =>
      simp only [closureAux] at h
      cases hby : byId mods cur with
      | none =>
        rw [hby] at h
        exact ih needed st r h hre (fun x hx => hst x (List.mem_cons_of_mem cur hx))
      | some m =>
        rw [hby] at h
        have hcur : Reach mods cur := hre cur (hst cur (List.mem_cons_self cur st))
        have hdep : ∀ d ∈ m.dependencies, Reach mods d := fun d hd =>
          Reach.step cur m d hcur hby hd
        refine ih _ _ r h ?_ ?_
        · intro x hx
          rcases pushDeps_fst_cases m.dependencies (needed, st) x hx with hx | hx
          · exact hre x hx
          · exact hdep x hx
        · exact pushDeps_snd_sub_fst m.dependencies (needed, st)
            (fun x hx => hst x (List.mem_cons_of_mem cur hx))

theorem closureAux_closed (mods : List InstalledEntry) :
    ∀ (fuel : Nat) (needed : Finset String) (stack : List String)
      (r : Finset String), closureAux mods fuel needed stack = some r →
      StackInv mods needed stack → (∀ x ∈ stack, x ∈ needed) →
      ∀ p ∈ r, ∀ m, byId mods p = some m → ∀ d ∈ m.dependencies, d ∈ r := by
  intro fuel
  induction fuel with
  | zero =>
    intro needed stack r h hinv hst
    cases stack with
    | nil =>
      simp only [closureAux, Option.some.injEq] at h
      subst h
      intro p hp m hm d hd
      rcases hinv p hp with hc | hc
      · exact absurd hc (List.not_mem_nil p)
      · exact hc m hm d hd
    | cons cur st => simp [closureAux] at h
  | succ fuel ih =>
    intro needed stack r h hinv hst
    cases stack with
    | nil =>
      simp only [closureAux, Option.some.injEq] at h
      subst h
      intro p hp m hm d hd
      rcases hinv p hp with hc | hc
      · exact absurd hc (List.not_mem_nil p)
      · exact hc m hm d hd
    | cons cur st =>
      simp only [closureAux] at h
      cases hby : byId mods cur with
      | none =>
        rw [hby] at h
        refine ih needed st r h ?_
          (fun x hx => hst x (List.mem_cons_of_mem cur hx))
        intro p hp
        rcases hinv p hp with hc | hc
        · rcases List.mem_cons.mp hc with rfl | hc
          · exact Or.inr (fun m hm => by rw [hby] at hm; exact absurd hm (by simp))
          · exact Or.inl hc
        · exact Or.inr hc
      | some m =>
        rw [hby] at h
        refine ih _ _ r h ?_ ?_
        · intro p hp
          rcases pushDeps_fst_cases m.dependencies (needed, st) p hp with hp' | hp'
          · rcases hinv p hp' with hc | hc
            · rcases List.mem_cons.mp hc with rfl | hc
              · refine Or.inr ?_
                intro m' hm' d hd
                rw [hby] at hm'
                obtain rfl : m' = m := (Option.some.inj hm').symm
                exact pushDeps_mem_fst m'.dependencies (needed, st) d hd
              · exact Or.inl (pushDeps_snd_sup m.dependencies (needed, st) p hc)
            · refine Or.inr ?_
              intro m' hm' d hd
              exact pushDeps_fst_sub m.dependencies (needed, st) (hc m' hm' d hd)
          · rcases pushDeps_mem_snd_or_start m.dependencies (needed, st) p hp' with
              hc | hc
            · exact Or.inl hc
            · rcases hinv p hc with hc' | hc'
              · rcases List.mem_cons.mp hc' with rfl | hc'
                · refine Or.inr ?_
                  intro m' hm' d hd
                  rw [hby] at hm'
                  obtain rfl : m' = m := (Option.some.inj hm').symm
                  exact pushDeps_mem_fst m'.dependencies (needed, st) d hd
                · exact Or.inl (pushDeps_snd_sup m.dependencies (needed, st) p hc')
              · refine Or.inr ?_
                intro m' hm' d hd
                exact pushDeps_fst_sub m.dependencies (needed, st) (hc' m' hm' d hd)
        · exact pushDeps_snd_sub_fst m.dependencies (needed, st)
            (fun x hx => hst x (List.mem_cons_of_mem cur hx))

theorem pruneNeeded_iff_Reach (mods : List InstalledEntry) (p : String) :
    p ∈ pruneNeeded mods ↔ Reach mods p := by
  set needed0 := (explicitIds mods).toFinset with hneeded0
  set stack0 := (explicitIds mods).dedup with hstack0
  set fuel := 2 * (idUniverse mods).card + stack0.length + 1 with hfuel
  have hsub : needed0 ⊆ idUniverse mods := explicitIds_sub_universe mods
  have hcard : needed0.card ≤ (idUniverse mods).card := Finset.card_le_card hsub
  have hsome : (closureAux mods fuel needed0 stack0).isSome := by
    apply closureAux_isSome mods fuel needed0 stack0 hsub
    omega
  obtain ⟨r, hr⟩ := Option.isSome_iff_exists.mp hsome
  have hpr : pruneNeeded mods = r := by
    rw [pruneNeeded, ← hneeded0, ← hstack0, ← hfuel, hr, Option.getD_some]
  have hst0 : ∀ x ∈ stack0, x ∈ needed0 := by
    intro x hx
    rw [hneeded0, List.mem_toFinset]
    exact (List.mem_dedup.mp (hstack0 ▸ hx))
  have hroots : ∀ x ∈ needed0, Reach mods x := by
    intro x hx
    rw [hneeded0, List.mem_toFinset, explicitIds] at hx
    obtain ⟨m, hm, rfl⟩ := List.mem_map.mp hx
    obtain ⟨hmem, hexp⟩ := List.mem_filter.mp hm
    exact Reach.root m hmem (by simpa using hexp)
  rw [hpr]
  constructor
  · exact fun hp => closureAux_sound mods fuel needed0 stack0 r hr hroots hst0 p hp
  · intro hreach
    induction hreach with
    | root m hm hx =>
      apply closureAux_mono mods fuel needed0 stack0 r hr
      rw [hneeded0, List.mem_toFinset, explicitIds]
      exact List.mem_map.mpr ⟨m, List.mem_filter.mpr ⟨hm, by simpa using hx⟩, rfl⟩
    | step q m d hq hm hd ihq =>
      have hclosed := closureAux_closed mods fuel needed0 stack0 r hr ?_ hst0
      · exact hclosed q ihq m hm d hd
      · intro x hx
        exact Or.inl (by rw [hstack0, List.mem_dedup]; exact List.mem_toFinset.mp (hneeded0 ▸ hx))

/-! ## Claim theorems -/

/-- C1: `find_best_version` returns the first candidate in input order that
satisfies the game-version match and the loader constraint (no declared
loaders, requested loader present, `"minecraft"`/`"datapack"` marker
present, or an `"iris"`/`"optifine"` shader alias present); it never returns
a candidate failing that filter, and it returns `none` — no exception —
exactly when no candidate matches. -/
theorem find_best_version_spec (versions : List VersionCandidate)
    (mc : List Char) (loader : String) :
    (∀ v, find_best_version versions mc loader = some v →
      SpecFilter mc loader v ∧
      ∃ l₁ l₂, versions = l₁ ++ v :: l₂ ∧ ∀ u ∈ l₁, ¬ SpecFilter mc loader u) ∧
    (find_best_version versions mc loader = none ↔
      ∀ v ∈ versions, ¬ SpecFilter mc loader v) :=
  ⟨fun v h => find_best_version_some versions mc loader v h,
   find_best_version_none_iff versions mc loader⟩

theorem find_best_version_spec_witness :
    (SpecFilter mc121 "fabric" exVerD ∧
      ∃ l₁ l₂, [exVerOld, exVerD] = l₁ ++ exVerD :: l₂ ∧
        ∀ u ∈ l₁, ¬ SpecFilter mc121 "fabric" u) ∧
    (find_best_version [exVerOld] mc121 "fabric" = none ↔
      ∀ v ∈ [exVerOld], ¬ SpecFilter mc121 "fabric" v) :=
  ⟨(find_best_version_spec [exVerOld, exVerD] mc121 "fabric").1 exVerD
      (by decide),
   (find_best_version_spec [exVerOld] mc121 "fabric").2⟩

/-- C2 counterexample: the claimed biconditional fails when the target
itself carries a wildcard.  With supported entry `"1.21.x"` (`p = "1.21"`)
and target `v = "1.x"`, `mc_version_matches` returns `True` through the
target-side wildcard branch, yet `v ≠ p` and `v` does not start with
`"1.21."`. -/
theorem mc_version_matches_counterexample :
    mc_version_matches ['1', '.', 'x'] [['1', '.', '2', '1'] ++ dotX] = true ∧
    ¬(['1', '.', 'x'] = ['1', '.', '2', '1']) ∧
    strStartsWith ['1', '.', 'x'] (['1', '.', '2', '1'] ++ dotC) = false := by
  decide

/-- C2 (amended): for a target `v` that does not itself end in `".x"`, a
supported entry `p ++ ".x"` matches exactly when `v = p` or `v` starts with
`p ++ "."`; symmetrically for a wildcard target against a non-wildcard
supported entry; exact equality with a supported entry is always a match;
and every match arises from one of the three loop clauses. -/
theorem mc_version_matches_amended_spec :
    (∀ p v, strEndsWith v dotX = false →
      ((mc_version_matches v [p ++ dotX] = true ↔
          v = p ∨ strStartsWith v (p ++ dotC) = true) ∧
        (mc_version_matches (p ++ dotX) [v] = true ↔
          v = p ∨ strStartsWith v (p ++ dotC) = true))) ∧
    (∀ t supported, t ∈ supported → mc_version_matches t supported = true) ∧
    (∀ t supported, mc_version_matches t supported = true →
      ∃ v ∈ supported, versionEntryMatches t v = true) :=
  ⟨fun p v hv => ⟨mc_wildcard_entry p v hv, mc_wildcard_target p v hv⟩,
   mc_exact_match, mc_matches_cases⟩

theorem mc_version_matches_amended_spec_witness :
    ((mc_version_matches ['1', '.', '2', '1', '.', '4']
          [['1', '.', '2', '1'] ++ dotX] = true ↔
        ['1', '.', '2', '1', '.', '4'] = ['1', '.', '2', '1'] ∨
          strStartsWith ['1', '.', '2', '1', '.', '4']
            (['1', '.', '2', '1'] ++ dotC) = true) ∧
      (mc_version_matches (['1', '.', '2', '1'] ++ dotX)
          [['1', '.', '2', '1', '.', '4']] = true ↔
        ['1', '.', '2', '1', '.', '4'] = ['1', '.', '2', '1'] ∨
          strStartsWith ['1', '.', '2', '1', '.', '4']
            (['1', '.', '2', '1'] ++ dotC) = true)) ∧
    mc_version_matches mc121 [mc121] = true ∧
    (∃ v ∈ [mc121], versionEntryMatches mc121 v = true) :=
  ⟨mc_version_matches_amended_spec.1 ['1', '.', '2', '1']
      ['1', '.', '2', '1', '.', '4'] (by decide),
   mc_version_matches_amended_spec.2.1 mc121 [mc121] (by decide),
   mc_version_matches_amended_spec.2.2 mc121 [mc121] (by decide)⟩

/-- C9: prune reads and deletes only in the mod bucket — the removed-slug
report and the surviving mod bucket are independent of the resourcepack and
shader buckets (their explicit flags and dependencies contribute nothing to
the reachability computation), and those buckets pass through unchanged. -/
theorem prune_store_frame_spec :
    ∀ (mods rp sh rp' sh' : List InstalledEntry),
      (prune_store ⟨mods, rp, sh⟩).1 = (prune_store ⟨mods, rp', sh'⟩).1 ∧
      (prune_store ⟨mods, rp, sh⟩).2.mods = (prune_store ⟨mods, rp', sh'⟩).2.mods ∧
      (prune_store ⟨mods, rp, sh⟩).2.resourcepacks = rp ∧
      (prune_store ⟨mods, rp, sh⟩).2.shaderpacks = sh :=
  fun _ _ _ _ _ => ⟨rfl, rfl, rfl, rfl⟩

/-- C10 counterexample: the two install implementations disagree on the
target bucket for `project_type = "datapack"`: `commands.install_mod` files
it under the mod bucket, `cli.install_mod` under the datapack bucket. -/
theorem install_bucket_counterexample :
    target_dir_commands "datapack" = some Bucket.mods ∧
    target_dir_cli "datapack" = some Bucket.datapacks ∧
    target_dir_commands "datapack" ≠ target_dir_cli "datapack" := by
  decide

/-- C10 (amended): the two install implementations agree on the target
bucket for every project type except `"datapack"`, and their persisted
records agree on every shared field — but `cli.install_mod` omits the
optional `sha1` hash that `commands.install_mod` records. -/
theorem cli_commands_agreement :
    (∀ t, t ≠ "datapack" → target_dir_commands t = target_dir_cli t) ∧
    (∀ proj version file explicit,
      (mkCliInstallData proj version file explicit).project_id =
          (mkInstallData proj version file explicit).project_id ∧
      (mkCliInstallData proj version file explicit).slug =
          (mkInstallData proj version file explicit).slug ∧
      (mkCliInstallData proj version file explicit).version_id =
          (mkInstallData proj version file explicit).version_id ∧
      (mkCliInstallData proj version file explicit).version_number =
          (mkInstallData proj version file explicit).version_number ∧
      (mkCliInstallData proj version file explicit).side =
          (mkInstallData proj version file explicit).side ∧
      (mkCliInstallData proj version file explicit).explicit =
          (mkInstallData proj version file explicit).explicit ∧
      (mkCliInstallData proj version file explicit).dependencies =
          (mkInstallData proj version file explicit).dependencies ∧
      (mkCliInstallData proj version file explicit).file =
        forgetSha1 (mkInstallData proj version file explicit).file) ∧
    target_dir_commands "datapack" = some Bucket.mods ∧
    target_dir_cli "datapack" = some Bucket.datapacks := by
  refine ⟨?_, ?_, rfl, rfl⟩
  · intro t ht
    have hd : (t == "datapack") = false := by
      simp [ht]
    simp [target_dir_commands, target_dir_cli, hd]
  · intro proj version file explicit
    exact ⟨rfl, rfl, rfl, rfl, rfl, rfl, rfl, rfl⟩

theorem cli_commands_agreement_witness :
    target_dir_commands "shader" = target_dir_cli "shader" ∧
    (mkCliInstallData exProjD exVerD exFileD true).file =
      forgetSha1 (mkInstallData exProjD exVerD exFileD true).file :=
  ⟨cli_commands_agreement.1 "shader" (by decide),
   (cli_commands_agreement.2.1 exProjD exVerD exFileD true).2.2.2.2.2.2.2⟩

/-- C3: prune deletes exactly the entries whose project id is unreachable
from the explicit entries along recorded dependency edges (the computed
`needed` set coincides with `Reach`), reports the deleted entries' slugs in
bucket order, and is a no-op when every entry is reachable. -/
theorem prune_unused_deps_spec (mods : List InstalledEntry) :
    (∀ p, p ∈ pruneNeeded mods ↔ Reach mods p) ∧
    (prune_unused_deps mods).1 =
      (mods.filter (fun m => decide (m.project_id ∉ pruneNeeded mods))).map
        (fun m => m.slug) ∧
    (∀ m ∈ mods, (m ∈ (prune_unused_deps mods).2 ↔ Reach mods m.project_id)) ∧
    ((∀ m ∈ mods, Reach mods m.project_id) →
      (prune_unused_deps mods).1 = [] ∧ (prune_unused_deps mods).2 = mods) := by
  refine ⟨pruneNeeded_iff_Reach mods, rfl, ?_, ?_⟩
  · intro m hm
    simp only [prune_unused_deps, List.mem_filter, decide_eq_true_eq]
    rw [pruneNeeded_iff_Reach]
    exact ⟨fun h => h.2, fun h => ⟨hm, h⟩⟩
  · intro hall
    have hmem : ∀ m ∈ mods, m.project_id ∈ pruneNeeded mods := fun m hm =>
      (pruneNeeded_iff_Reach mods m.project_id).mpr (hall m hm)
    constructor
    · simp only [prune_unused_deps]
      rw [List.map_eq_nil_iff, List.filter_eq_nil_iff]
      intro m hm
      simp only [decide_eq_true_eq, Decidable.not_not]
      exact hmem m hm
    · simp only [prune_unused_deps]
      rw [List.filter_eq_self]
      intro m hm
      simp only [decide_eq_true_eq]
      exact hmem m hm

theorem prune_unused_deps_spec_witness :
    (prune_unused_deps wMods).1 = [] ∧ (prune_unused_deps wMods).2 = wMods := by
  have hA : Reach wMods "pidA" := Reach.root wEntryA (by simp [wMods]) rfl
  have hD : Reach wMods "pidD" :=
    Reach.step "pidA" wEntryA "pidD" hA (by decide) (by decide)
  refine (prune_unused_deps_spec wMods).2.2.2 ?_
  intro m hm
  rcases List.mem_cons.mp hm with rfl | hm
  · exact hA
  · rcases List.mem_cons.mp hm with rfl | hm
    · exact hD
    · exact absurd hm (List.not_mem_nil m)

/-- C4: when the target differs from the current version and some installed
mod has no compatible candidate, `upgrade` aborts with the full offending
slug list and leaves the configuration (in particular `minecraft_version`
and `loader_version`) and the store untouched. -/
theorem upgrade_blocked_spec (cfg : PackConfig)
    (versionsOf : String → List VersionCandidate) (target : List Char)
    (latestFabric : List Char → Option String) (store : Store)
    (m : InstalledEntry) (hm : m ∈ store.mods)
    (hne : target ≠ cfg.minecraft_version)
    (hinc : checkCompatible target cfg.loader (versionsOf m.project_id) = false) :
    (upgrade cfg versionsOf target latestFabric store).1 = cfg ∧
    (upgrade cfg versionsOf target latestFabric store).2.1 = store ∧
    (upgrade cfg versionsOf target latestFabric store).2.2 =
      .blocked ((store.mods.filter fun e =>
        !(checkCompatible target cfg.loader (versionsOf e.project_id))).map
          (fun e => e.slug)) ∧
    (upgrade cfg versionsOf target latestFabric store).1.minecraft_version =
      cfg.minecraft_version ∧
    (upgrade cfg versionsOf target latestFabric store).1.loader_version =
      cfg.loader_version := by
  have hb : (target == cfg.minecraft_version) = false := by
    simp [hne]
  have hfm : m ∈ store.mods.filter (fun e =>
      !(checkCompatible target cfg.loader (versionsOf e.project_id))) :=
    List.mem_filter.mpr ⟨hm, by simp [hinc]⟩
  have hne2 : ((store.mods.filter fun e =>
      !(checkCompatible target cfg.loader (versionsOf e.project_id))).map
        (fun e => e.slug)) ≠ [] := by
    intro hc
    rw [List.map_eq_nil_iff] at hc
    rw [hc] at hfm
    exact List.not_mem_nil m hfm
  have hempty : ((store.mods.filter fun e =>
      !(checkCompatible target cfg.loader (versionsOf e.project_id))).map
        (fun e => e.slug)).isEmpty = false := by
    rcases h : ((store.mods.filter fun e =>
      !(checkCompatible target cfg.loader (versionsOf e.project_id))).map
        (fun e => e.slug)) with _ | ⟨a, l⟩
    · exact absurd h hne2
    · rw [h]
      rfl
  rw [upgrade]
  simp [hb, hempty]

theorem upgrade_blocked_spec_witness :
    (upgrade exCfg (fun _ => []) mc122 (fun _ => none) cStore).1 = exCfg ∧
    (upgrade exCfg (fun _ => []) mc122 (fun _ => none) cStore).2.1 = cStore ∧
    (upgrade exCfg (fun _ => []) mc122 (fun _ => none) cStore).2.2 =
      .blocked ["s"] := by
  have h := upgrade_blocked_spec exCfg (fun _ => []) mc122 (fun _ => none)
    cStore cEntry (by decide) (by decide) (by decide)
  refine ⟨h.1, h.2.1, ?_⟩
  rw [h.2.2.1]
  decide

/-- C7 counterexample: a candidate tagged only with the `iris` shader alias
passes `find_best_version`'s filter (section 4.2) but `check`'s inline
filter — which lacks the `"datapack"` and `"iris"`/`"optifine"` clauses —
still reports the entry as incompatible. -/
theorem check_filter_counterexample :
    find_best_version [exVerIris] mc121 "fabric" = some exVerIris ∧
    (check exCfg (fun _ => [exVerIris]) mc121 cStore).1 = ["s"] := by
  decide

/-- C7 (amended): `check` reports an entry exactly when no fetched candidate
passes `check`'s own filter (game-version match plus: no declared loaders,
requested loader present, or `"minecraft"` present — without the
`"datapack"`/shader-alias clauses of 4.2), and it mutates neither the store
nor the configuration. -/
theorem check_spec (cfg : PackConfig)
    (versionsOf : String → List VersionCandidate) (target : List Char)
    (store : Store) :
    (∀ m ∈ store.mods,
      checkCompatible target cfg.loader (versionsOf m.project_id) = false →
        m.slug ∈ (check cfg versionsOf target store).1) ∧
    (∀ s ∈ (check cfg versionsOf target store).1,
      ∃ m ∈ store.mods, s = m.slug ∧
        ∀ v ∈ versionsOf m.project_id,
          ¬(mc_version_matches target v.game_versions = true ∧
            checkLoaderAccepts cfg.loader v = true)) ∧
    (check cfg versionsOf target store).2.1 = store ∧
    (check cfg versionsOf target store).2.2 = cfg := by
  refine ⟨?_, ?_, rfl, rfl⟩
  · intro m hm hc
    simp only [check]
    exact List.mem_map.mpr ⟨m, List.mem_filter.mpr ⟨hm, by simp [hc]⟩, rfl⟩
  · intro s hs
    simp only [check] at hs
    obtain ⟨m, hm, rfl⟩ := List.mem_map.mp hs
    obtain ⟨hmem, hpred⟩ := List.mem_filter.mp hm
    refine ⟨m, hmem, rfl, ?_⟩
    have hfalse : checkCompatible target cfg.loader (versionsOf m.project_id) =
        false := by
      simpa using hpred
    intro v hv hcontra
    have : checkCompatible target cfg.loader (versionsOf m.project_id) = true := by
      rw [checkCompatible, List.any_eq_true]
      exact ⟨v, hv, by simp [hcontra.1, hcontra.2]⟩
    rw [this] at hfalse
    simp at hfalse

theorem check_spec_witness :
    "s" ∈ (check exCfg (fun _ => []) mc122 cStore).1 ∧
    (check exCfg (fun _ => []) mc122 cStore).2.1 = cStore ∧
    (check exCfg (fun _ => []) mc122 cStore).2.2 = exCfg :=
  ⟨(check_spec exCfg (fun _ => []) mc122 cStore).1 cEntry (by decide) (by decide),
   (check_spec exCfg (fun _ => []) mc122 cStore).2.2.1,
   (check_spec exCfg (fun _ => []) mc122 cStore).2.2.2⟩

/-- C8: `update_all` processes each entry independently: a per-entry fetch
failure (or missing artifact) is reported as `failed` without touching the
entry or the rest of the batch; a newest match equal to the recorded
version with `force` off is skipped without a rewrite; an overwrite
replaces exactly `version_id`, `version_number`, `file` and `dependencies`
while `project_id`, `slug`, `side` and `explicit` are preserved. -/
theorem update_all_spec (mc : List Char) (loader : String)
    (versionsOf : String → Except String (List VersionCandidate))
    (force : Bool) :
    (∀ e, (processEntry mc loader force versionsOf e).1.project_id = e.project_id ∧
      (processEntry mc loader force versionsOf e).1.slug = e.slug ∧
      (processEntry mc loader force versionsOf e).1.side = e.side ∧
      (processEntry mc loader force versionsOf e).1.explicit = e.explicit) ∧
    (∀ e versions newest, versionsOf e.project_id = .ok versions →
      find_best_version versions mc loader = some newest →
      newest.id = e.version_id → force = false →
      processEntry mc loader force versionsOf e = (e, .skipped)) ∧
    (∀ e versions newest f fs, versionsOf e.project_id = .ok versions →
      find_best_version versions mc loader = some newest →
      (newest.id == e.version_id && !force) = false →
      newest.files = f :: fs →
      processEntry mc loader force versionsOf e =
        ({ e with
            version_id := newest.id
            version_number := newest.version_number
            file := f
            dependencies := requiredDeps newest }, .updated)) ∧
    (∀ e msg, versionsOf e.project_id = .error msg →
      processEntry mc loader force versionsOf e = (e, .failed)) ∧
    (∀ es, updateBucket mc loader force versionsOf es =
      (es.map (fun e => (processEntry mc loader force versionsOf e).1),
       es.map (fun e => (e.slug, (processEntry mc loader force versionsOf e).2)))) := by
  refine ⟨?_, ?_, ?_, ?_, fun es => rfl⟩
  · intro e
    cases h1 : versionsOf e.project_id with
    | error msg => simp [processEntry, h1]
    | ok versions =>
      cases h2 : find_best_version versions mc loader with
      | none => simp [processEntry, h1, h2]
      | some newest =>
        by_cases h3 : (newest.id == e.version_id && !force) = true
        · simp [processEntry, h1, h2, h3]
        · cases h4 : newest.files with
          | nil => simp [processEntry, h1, h2, h3, h4]
          | cons f fs => simp [processEntry, h1, h2, h3, h4]
  · intro e versions newest h1 h2 hid hforce
    have h3 : (newest.id == e.version_id && !force) = true := by
      simp [hid, hforce]
    simp [processEntry, h1, h2, h3]
  · intro e versions newest f fs h1 h2 h3 h4
    simp [processEntry, h1, h2, h3, h4]
  · intro e msg h1
    simp [processEntry, h1]

theorem update_all_spec_witness :
    processEntry mc121 "fabric" false exVersionsOf wEntryD =
      (wEntryD, .skipped) ∧
    processEntry mc121 "fabric" false exVersionsOf uEntry =
      ({ uEntry with
          version_id := exVerD.id
          version_number := exVerD.version_number
          file := exFileD
          dependencies := requiredDeps exVerD }, .updated) ∧
    processEntry mc121 "fabric" false exVersionsOf cEntry =
      (cEntry, .failed) := by
  have h := update_all_spec mc121 "fabric" exVersionsOf false
  refine ⟨?_, ?_, ?_⟩
  · exact h.2.1 wEntryD [exVerD] exVerD rfl (by decide) rfl rfl
  · exact h.2.2.1 uEntry [exVerD] exVerD exFileD [] rfl (by decide)
      (by decide) (by decide)
  · exact h.2.2.2.1 cEntry "HTTP 500" rfl

/-- C5: within one process (shared visited set), two explicit installs of
the same identifier perform exactly one version resolution and one record
write for that project in total: a completed fresh first call accounts for
both, the second call is a strict no-op (same state, no new events, since
the entry is already explicit), and when the persisted entry is still
implicit an explicit call performs only the promotion write — flipping
`explicit` to `true` — with no version fetch.  (Project-metadata resolution
happens on every call and is not counted; the spec's own promotion scenario
says "beyond project resolution".) -/
theorem install_idempotent_spec (reg : Registry) (mc : List Char)
    (loader : String) (identifier : String) (st0 : IState)
    (fuel1 fuel2 : Nat) (st1 : IState) (bucket : Bucket)
    (v : VersionCandidate) (f : FileInfo) (fs : List FileInfo)
    (hty : target_dir_commands (reg.resolveP identifier).project_type = some bucket)
    (hvis : (reg.resolveP identifier).slug ∉ st0.visited)
    (hev : st0.events = [])
    (hsel : find_best_version (reg.versionsOf (reg.resolveP identifier).id)
      mc loader = some v)
    (hfiles : v.files = f :: fs)
    (hcohid : ∀ s, (reg.resolveP s).id = (reg.resolveP identifier).id →
      reg.resolveP s = reg.resolveP identifier)
    (hrun : install_mod reg mc loader (fuel1 + 1) identifier true st0 = .ok st1) :
    countFetch (reg.resolveP identifier).id st1.events = 1 ∧
    countWriteSlug (reg.resolveP identifier).slug st1.events = 1 ∧
    install_mod reg mc loader (fuel2 + 1) identifier true st1 = .ok st1 ∧
    (∀ st data, (reg.resolveP identifier).slug ∈ st.visited →
      storeFind st.store bucket (reg.resolveP identifier).slug = some data →
      data.explicit = false →
      install_mod reg mc loader (fuel2 + 1) identifier true st = .ok
        { st with
            store := storeWrite st.store bucket (reg.resolveP identifier).slug
              { data with explicit := true }
            events := st.events ++
              [.writeEntry bucket (reg.resolveP identifier).slug] }) := by
  obtain ⟨h1, h2, h3, h4⟩ := install_fresh_run reg mc loader identifier st0
    fuel1 st1 bucket v f fs hty hvis hsel hfiles hcohid hrun
  refine ⟨?_, ?_, ?_, ?_⟩
  · rw [h1, hev]
    rfl
  · rw [h2, hev]
    rfl
  · exact ((install_visited_branch reg mc loader identifier fuel2 st1 bucket
      hty h4).1 (mkInstallData (reg.resolveP identifier) v f true) h3).1 rfl
  · intro st data hv hfind himp
    exact ((install_visited_branch reg mc loader identifier fuel2 st bucket
      hty hv).1 data hfind).2 himp

theorem install_idempotent_spec_witness :
    (countFetch "pidD" wSt1.events = 1 ∧
      countWriteSlug "d" wSt1.events = 1 ∧
      install_mod exReg mc121 "fabric" 2 "pidD" true wSt1 = .ok wSt1) ∧
    install_mod exReg mc121 "fabric" 2 "pidD" true wStImp = .ok
      { wStImp with
          store := storeWrite wStImp.store Bucket.mods "d"
            { wEntryDImp with explicit := true }
          events := wStImp.events ++ [.writeEntry Bucket.mods "d"] } := by
  have hcohid : ∀ s, (exReg.resolveP s).id = (exReg.resolveP "pidD").id →
      exReg.resolveP s = exReg.resolveP "pidD" := by
    intro s hs
    by_cases hcase : (s == "pidD") = true
    · have hseq : s = "pidD" := by simpa using hcase
      rw [hseq]
    · exfalso
      simp only [exReg, hcase, Bool.false_eq_true, if_false, if_true] at hs
      exact absurd hs (by decide)
  have h := install_idempotent_spec exReg mc121 "fabric" "pidD" ⟨[], [], []⟩
    1 1 wSt1 Bucket.mods exVerD exFileD [] rfl (by decide) rfl (by decide)
    rfl hcohid rfl
  exact ⟨⟨h.1, h.2.1, h.2.2.1⟩,
    h.2.2.2 wStImp wEntryDImp (by decide) rfl rfl⟩

/-- C6 counterexample: the explicit flag can be demoted `true → false`.
D is persisted explicitly; a later `install_mod("a")` with a fresh visited
set recursively re-installs dependency D and overwrites its record with
`explicit = false`. -/
theorem install_explicit_demotion_counterexample :
    storeFind exSt0.store Bucket.mods "d" = some exEntryD ∧
    exEntryD.explicit = true ∧
    (storeFind (resState (install_mod exReg mc121 "fabric" 3 "a" true exSt0)).store
        Bucket.mods "d").map (fun e => e.explicit) = some false := by
  exact ⟨rfl, rfl, rfl⟩

/-- C6 (amended): on the visited-hit path (the only mutation path inside a
single call tree once a slug is marked) the explicit flag is only ever
flipped `false → true`: every persisted entry is either left untouched or
promoted.  Demotion can only happen through a full re-install (slug not in
the visited set), which rewrites the record with the call's explicit flag —
as the counterexample shows. -/
theorem install_visited_only_promotes (reg : Registry) (mc : List Char)
    (loader : String) (identifier : String) (fuel : Nat) (st st' : IState)
    (explicit : Bool) (bucket : Bucket)
    (hty : target_dir_commands (reg.resolveP identifier).project_type = some bucket)
    (hvis : (reg.resolveP identifier).slug ∈ st.visited)
    (hrun : install_mod reg mc loader (fuel + 1) identifier explicit st = .ok st') :
    ∀ b s e, storeFind st.store b s = some e →
      storeFind st'.store b s = some e ∨
        (explicit = true ∧ e.explicit = false ∧
          storeFind st'.store b s = some { e with explicit := true }) := by
  intro b s e hfind
  rw [install_mod] at hrun
  cases explicit with
  | false =>
    simp only [install_many, hty, if_pos hvis, Bool.false_eq_true, if_false] at hrun
    have : st = st' := by
      injection hrun
    exact Or.inl (this ▸ hfind)
  | true =>
    cases hf : storeFind st.store bucket (reg.resolveP identifier).slug with
    | none =>
      simp only [install_many, hty, if_pos hvis, if_true, hf] at hrun
      have : st = st' := by
        injection hrun
      exact Or.inl (this ▸ hfind)
    | some data =>
      cases hde : data.explicit with
      | true =>
        simp only [install_many, hty, if_pos hvis, if_true, hf, hde] at hrun
        have : st = st' := by
          injection hrun
        exact Or.inl (this ▸ hfind)
      | false =>
        simp only [install_many, hty, if_pos hvis, if_true, hf, hde,
          Bool.false_eq_true, if_false] at hrun
        have hst' : st' =
            { st with
                store := storeWrite st.store bucket (reg.resolveP identifier).slug
                  { data with explicit := true }
                events := st.events ++
                  [.writeEntry bucket (reg.resolveP identifier).slug] } := by
          injection hrun with h
          exact h.symm
        by_cases hkey : b = bucket ∧ s = (reg.resolveP identifier).slug
        · have hb : b = bucket := hkey.1
          have hs : s = (reg.resolveP identifier).slug := hkey.2
          have he : e = data := by
            rw [hb, hs, hf] at hfind
            exact (Option.some.inj hfind).symm
          refine Or.inr ⟨rfl, ?_, ?_⟩
          · rw [he]
            exact hde
          · rw [hst', hb, hs, he]
            exact storeFind_storeWrite_same st.store bucket
              (reg.resolveP identifier).slug { data with explicit := true }
        · refine Or.inl ?_
          rw [hst']
          exact (storeFind_storeWrite_ne st.store b bucket s
            (reg.resolveP identifier).slug { data with explicit := true }
            hkey).trans hfind

theorem install_visited_only_promotes_witness :
    storeFind wStPromoted.store Bucket.mods "d" = some wEntryDImp ∨
      (true = true ∧ wEntryDImp.explicit = false ∧
        storeFind wStPromoted.store Bucket.mods "d" =
          some { wEntryDImp with explicit := true }) :=
  install_visited_only_promotes exReg mc121 "fabric" "pidD" 1 wStImp
    wStPromoted true Bucket.mods rfl (by decide) rfl Bucket.mods "d"
    wEntryDImp rfl

end Azalea
